import Mathlib

/-!
Shallow embedding of the PPM codec from src/ppm.c (florentgluck/ppm).

A file is modelled as a byte sequence, List Nat with entries read modulo
nothing (writers only ever emit values below 256 under the hypotheses the
theorems carry).  A FILE cursor is modelled by passing the remaining
suffix of the byte list around; ftell followed by a later fseek to the
recorded offset is modelled by remembering that suffix.

The C functions return NULL (load_ppm, load_header) or a bool (write_ppm)
on failure.  The embedding additionally labels each distinct failure exit
of the source with the name the specification gives to that exit
(PPMErr); the caller-visible value is recovered by the erasure
load_ppm_ret below, which forgets the label.  The outer Option models
termination: none stands for the one input class on which the C readline
loop never returns (end of file reached while the line buffer still holds
a comment).
-/

deriving instance DecidableEq for Except

namespace Ppm

/-- Whitespace bytes recognised by the scanf family: space and 9..13. -/
def isWs (b : Nat) : Bool := decide (b = 32 ∨ (9 ≤ b ∧ b ≤ 13))

/-- ASCII decimal digit bytes. -/
def isDigit (b : Nat) : Bool := decide (48 ≤ b ∧ b ≤ 57)

/-- Value of a big-endian list of ASCII digit bytes. -/
def digitsVal (ds : List Nat) : Nat := ds.foldl (fun a d => a * 10 + (d - 48)) 0

def U32 : Nat := 4294967296

def U64 : Nat := 18446744073709551616

/-- scanf %u on a byte sequence: skip whitespace, optional sign, a nonempty
run of decimal digits (strtoul base 10, clamped at ULONG_MAX on overflow,
negated modulo 2^64 for a leading minus), stored into a 32-bit unsigned int.
Returns the value and the unconsumed suffix, or none on matching failure. -/
def scanU (s : List Nat) : Option (Nat × List Nat) :=
  let s1 := s.dropWhile isWs
  let s2 := if s1.headD 0 = 43 ∨ s1.headD 0 = 45 then s1.drop 1 else s1
  let ds := s2.takeWhile isDigit
  if ds.isEmpty then none
  else
    let v := min (digitsVal ds) (U64 - 1)
    let v64 := if s1.headD 0 = 45 then (U64 - v) % U64 else v
    some (v64 % U32, s2.drop ds.length)

/-- sscanf on the line with format %u %u succeeding with 2 conversions;
anything on the line after the second converted integer is left unread. -/
def scan2u (l : List Nat) : Option (Nat × Nat) :=
  match scanU l with
  | none => none
  | some (w, l1) =>
    match scanU l1 with
    | none => none
    | some (h, _) => some (w, h)

/-- sscanf on the line with format %u succeeding with 1 conversion. -/
def scan1u (l : List Nat) : Option Nat :=
  match scanU l with
  | none => none
  | some (v, _) => some v

/-- Bytes other than newline, the scan set of the %1024[^\n] conversion. -/
def notNl (b : Nat) : Bool := decide (b ≠ 10)

/-- fscanf %1024[^\n]: at most 1024 bytes of the leading newline-free run. -/
def takeLine (s : List Nat) : List Nat :=
  (s.takeWhile notNl).take 1024

/-- Line-buffer contents after the %1024[^\n] conversion: a conversion that
matches zero bytes leaves the buffer untouched. -/
def lineBuf (s buf : List Nat) : List Nat :=
  if (takeLine s).isEmpty then buf else takeLine s

/-- Remaining input after one readline iteration: past the bytes the
%1024[^\n] conversion consumed and the maximal whitespace run the newline
directive consumed. -/
def lineRest (s : List Nat) : List Nat :=
  (s.drop (takeLine s).length).dropWhile isWs

/-- One readline loop of src/ppm.c (fuel-indexed so that the recursion is
structural).  Each iteration performs fscanf %1024[^\n] into the persistent
line buffer (left untouched when zero bytes match), then an fscanf newline
directive, which
consumes a maximal run of whitespace, then exits unless the buffer starts
with the comment byte 35.  At end of file with a comment still in the
buffer the C loop never terminates; that case yields none. -/
def readlineF : Nat → List Nat → List Nat → Option (List Nat × List Nat)
  | 0, _, _ => none
  | fuel + 1, s, buf =>
    if (lineBuf s buf).headD 0 = 35 then
      if s.isEmpty then none else readlineF fuel (lineRest s) (lineBuf s buf)
    else some (lineBuf s buf, lineRest s)

/-- readline of src/ppm.c on the remaining input s with current buffer
contents buf; returns the line (buffer contents at exit) and the remaining
input, or none when the C loop diverges. -/
def readline (s buf : List Nat) : Option (List Nat × List Nat) :=
  readlineF (s.length + 1) s buf

inductive PPM_TYPE where
  | ascii
  | raw
deriving DecidableEq, Repr

/-- The names the specification gives to the distinct failure exits of
load_header and load_ppm.  The C code collapses all of them into a NULL
return; see load_ppm_ret. -/
inductive PPMErr where
  | unsupportedFormat
  | malformedHeader
  | unsupportedRange
  | malformedPixelData
  | componentOutOfRange
deriving DecidableEq, Repr

/-- ppm_header_t; rest models data_offset as the input suffix that starts
at the recorded offset. -/
structure ppm_header where
  type : PPM_TYPE
  width : Nat
  height : Nat
  maxval : Nat
  rest : List Nat
deriving DecidableEq, Repr

def tagP3 : List Nat := [80, 51]

def tagP6 : List Nat := [80, 54]

/-- load_header of src/ppm.c.  buf0 is the initial content of the stack
line buffer, which the C code leaves uninitialised; it is only ever
consulted on inputs whose first line is empty. -/
def load_header (s buf0 : List Nat) : Option (Except PPMErr ppm_header) :=
  match readline s buf0 with
  | none => none
  | some (l1, s1) =>
    let cont := fun (ty : PPM_TYPE) =>
      match readline s1 l1 with
      | none => none
      | some (l2, s2) =>
        match scan2u l2 with
        | none => some (.error .malformedHeader)
        | some (w, h) =>
          match readline s2 l2 with
          | none => none
          | some (l3, s3) =>
            match scan1u l3 with
            | none => some (.error .malformedHeader)
            | some mv =>
              if 255 < mv then some (.error .unsupportedRange)
              else some (.ok ⟨ty, w, h, mv, s3⟩)
    if l1 = tagP3 then cont .ascii
    else if l1 = tagP6 then cont .raw
    else some (.error .unsupportedFormat)

/-- Modelled from the spec: pixel_t of ppm.h (the header file is not under
src/): three components r, g, b, one unsigned byte each.  Components are
Nat here; theorems carry the bound 255 where a claim needs it. -/
structure pixel_t where
  r : Nat
  g : Nat
  b : Nat
deriving DecidableEq, Repr

/-- Modelled from the spec: img_t of ppm.h: width, height and the flat
row-major pixel store pix1d.  The derived row view pix2d is a convenience
alias of pix1d and carries no further information, so it is not modelled. -/
structure img_t where
  width : Nat
  height : Nat
  pix1d : List pixel_t
deriving DecidableEq, Repr

/-- The binary pixel loop of load_ppm: three one-byte fread calls per
pixel.  The return values of fread are not checked in the C code, so past
the end of the input the malloc-allocated pixel byte keeps its
indeterminate value; the model fixes that indeterminate byte to 0.
Theorems never depend on that choice except through successful loads that
consumed enough input. -/
def decodeBin : Nat → List Nat → List pixel_t
  | 0, _ => []
  | n + 1, s =>
    ⟨s.headD 0, (s.drop 1).headD 0, (s.drop 2).headD 0⟩ :: decodeBin n (s.drop 3)

/-- fscanf with format %u %u %u reaching 3 conversions. -/
def scanU3 (s : List Nat) : Option (Nat × Nat × Nat × List Nat) :=
  match scanU s with
  | none => none
  | some (r, s1) =>
    match scanU s1 with
    | none => none
    | some (g, s2) =>
      match scanU s2 with
      | none => none
      | some (b, s3) => some (r, g, b, s3)

/-- The ASCII pixel loop of load_ppm: per pixel, three %u conversions
(fewer than three is a failure), then the range test of each component
against the maxval declared in the header. -/
def decodeAscii (maxval : Nat) : Nat → List Nat → Except PPMErr (List pixel_t)
  | 0, _ => .ok []
  | n + 1, s =>
    match scanU3 s with
    | none => .error .malformedPixelData
    | some (r, g, b, s1) =>
      if maxval < r ∨ maxval < g ∨ maxval < b then .error .componentOutOfRange
      else
        match decodeAscii maxval n s1 with
        | .error e => .error e
        | .ok ps => .ok (⟨r, g, b⟩ :: ps)

/-- load_ppm of src/ppm.c with the failure exits labelled.  The pixel
count is the 32-bit unsigned product width*height.  Memory allocation is
modelled as always succeeding. -/
def load_ppm (s buf0 : List Nat) : Option (Except PPMErr img_t) :=
  match load_header s buf0 with
  | none => none
  | some (.error e) => some (.error e)
  | some (.ok h) =>
    let n := h.width * h.height % U32
    match h.type with
    | .ascii =>
      match decodeAscii h.maxval n h.rest with
      | .error e => some (.error e)
      | .ok ps => some (.ok ⟨h.width, h.height, ps⟩)
    | .raw => some (.ok ⟨h.width, h.height, decodeBin n h.rest⟩)

/-- The value load_ppm actually hands to its caller: an img_t pointer or
NULL, with every failure collapsed to NULL and no error information.  (On
the divergent inputs the C call never returns; the erasure maps those to
none as well, and no theorem about load_ppm_ret concerns them.) -/
def load_ppm_ret (s buf0 : List Nat) : Option img_t :=
  match load_ppm s buf0 with
  | some (.ok i) => some i
  | _ => none

/-- Decimal digits of n (fuel-indexed mirror of the printf %d expansion). -/
def decBytesAux : Nat → Nat → List Nat
  | 0, _ => []
  | fuel + 1, n =>
    if n < 10 then [48 + n] else decBytesAux fuel (n / 10) ++ [48 + n % 10]

/-- ASCII decimal representation of n, as printf %d prints it for
nonnegative arguments. -/
def decBytes (n : Nat) : List Nat := decBytesAux (n + 1) n

/-- The binary pixel loop of write_ppm: raw bytes r, g, b per pixel. -/
def writeBinPixels : List pixel_t → List Nat
  | [] => []
  | p :: ps => p.r :: p.g :: p.b :: writeBinPixels ps

/-- fprintf of one pixel with format %d %d %d followed by a space. -/
def pixDec (p : pixel_t) : List Nat :=
  decBytes p.r ++ 32 :: decBytes p.g ++ 32 :: decBytes p.b ++ [32]

/-- The ASCII pixel loop of write_ppm with its running pixel counter: a
newline is appended whenever the incremented counter is divisible by 5. -/
def writeAsciiPixels : Nat → List pixel_t → List Nat
  | _, [] => []
  | count, p :: ps =>
    pixDec p ++ (if (count + 1) % 5 = 0 then [10] else []) ++
      writeAsciiPixels (count + 1) ps

/-- The header fprintf: tag line, then width and height separated by a
space, then the literal line 255, each line newline-terminated. -/
def headerBytes (tag : List Nat) (w h : Nat) : List Nat :=
  tag ++ 10 :: (decBytes w ++ 32 :: decBytes h) ++ 10 :: [50, 53, 53, 10]

/-- write_ppm of src/ppm.c, writing to memory.  Opening the destination
and the success of the individual fwrite/fprintf calls are environment
effects outside the byte-level model (the C code checks only fopen and
reports it as its bool result). -/
def write_ppm (img : img_t) (ty : PPM_TYPE) : List Nat :=
  match ty with
  | .raw => headerBytes tagP6 img.width img.height ++ writeBinPixels img.pix1d
  | .ascii => headerBytes tagP3 img.width img.height ++ writeAsciiPixels 0 img.pix1d

/-! ### Elementary list facts -/

theorem takeWhile_append_all {α : Type} {p : α → Bool} {l : List α} (r : List α)
    (h : ∀ b ∈ l, p b = true) : (l ++ r).takeWhile p = l ++ r.takeWhile p := by
  induction l with
  | nil => simp
  | cons a t ih =>
    have ha : p a = true := h a (List.mem_cons_self a t)
    simp only [List.cons_append, List.takeWhile_cons, ha, if_true]
    rw [ih fun b hb => h b (List.mem_cons_of_mem a hb)]

theorem dropWhile_append_all {α : Type} {p : α → Bool} {l : List α} (r : List α)
    (h : ∀ b ∈ l, p b = true) : (l ++ r).dropWhile p = r.dropWhile p := by
  induction l with
  | nil => simp
  | cons a t ih =>
    have ha : p a = true := h a (List.mem_cons_self a t)
    simp only [List.cons_append, List.dropWhile_cons, ha, if_true]
    exact ih fun b hb => h b (List.mem_cons_of_mem a hb)

theorem takeWhile_cons_false {α : Type} {p : α → Bool} {a : α} (l : List α)
    (h : p a = false) : (a :: l).takeWhile p = [] := by
  simp [List.takeWhile_cons, h]

theorem dropWhile_cons_false {α : Type} {p : α → Bool} {a : α} (l : List α)
    (h : p a = false) : (a :: l).dropWhile p = a :: l := by
  simp [List.dropWhile_cons, h]

theorem dropWhile_isWs_nop {s : List Nat} (h : isWs (s.headD 0) = false) :
    s.dropWhile isWs = s := by
  cases s with
  | nil => rfl
  | cons a t => exact dropWhile_cons_false t (by simpa using h)

theorem isWs_digit_false {b : Nat} (h48 : 48 ≤ b) (h57 : b ≤ 57) : isWs b = false := by
  simp only [isWs, decide_eq_false_iff_not]
  omega

/-! ### Decimal printing: printf %d digits and their value -/

theorem decBytesAux_fuel : ∀ f g n : Nat, n < f → n < g →
    decBytesAux f n = decBytesAux g n := by
  intro f
  induction f with
  | zero => intro g n hf _; exact absurd hf (Nat.not_lt_zero n)
  | succ f ih =>
    intro g n hf hg
    cases g with
    | zero => exact absurd hg (Nat.not_lt_zero n)
    | succ g =>
      simp only [decBytesAux]
      by_cases h10 : n < 10
      · simp [h10]
      · have hd : n / 10 < n := Nat.div_lt_self (by omega) (by omega)
        simp only [h10, if_false]
        rw [ih g (n / 10) (by omega) (by omega)]

theorem decBytes_lt10 {n : Nat} (h : n < 10) : decBytes n = [48 + n] := by
  simp [decBytes, decBytesAux, h]

theorem decBytes_ge10 {n : Nat} (h : 10 ≤ n) :
    decBytes n = decBytes (n / 10) ++ [48 + n % 10] := by
  have hd : n / 10 < n := Nat.div_lt_self (by omega) (by omega)
  have step : decBytesAux (n + 1) n = decBytesAux n (n / 10) ++ [48 + n % 10] := by
    simp only [decBytesAux, show ¬ n < 10 by omega, if_false]
  rw [decBytes, step, decBytesAux_fuel n (n / 10 + 1) (n / 10) (by omega) (by omega)]
  rfl

theorem decBytes_digits : ∀ n : Nat, ∀ b ∈ decBytes n, 48 ≤ b ∧ b ≤ 57 := by
  intro n
  induction n using Nat.strong_induction_on with
  | _ n ih =>
    by_cases h : n < 10
    · rw [decBytes_lt10 h]
      intro b hb
      simp only [List.mem_singleton] at hb
      omega
    · rw [decBytes_ge10 (by omega)]
      intro b hb
      rcases List.mem_append.mp hb with h1 | h2
      · exact ih (n / 10) (Nat.div_lt_self (by omega) (by omega)) b h1
      · simp only [List.mem_singleton] at h2
        have : n % 10 < 10 := Nat.mod_lt n (by omega)
        omega

theorem decBytes_ne_nil (n : Nat) : decBytes n ≠ [] := by
  by_cases h : n < 10
  · rw [decBytes_lt10 h]; simp
  · rw [decBytes_ge10 (by omega)]; simp

theorem digitsVal_decBytes : ∀ n : Nat, digitsVal (decBytes n) = n := by
  intro n
  induction n using Nat.strong_induction_on with
  | _ n ih =>
    by_cases h : n < 10
    · rw [decBytes_lt10 h]
      simp [digitsVal]
    · rw [decBytes_ge10 (by omega)]
      have : digitsVal (decBytes (n / 10)) = n / 10 :=
        ih (n / 10) (Nat.div_lt_self (by omega) (by omega))
      simp only [digitsVal, List.foldl_append] at this ⊢
      rw [this]
      have : n % 10 < 10 := Nat.mod_lt n (by omega)
      simp only [List.foldl_cons, List.foldl_nil]
      omega

theorem decBytes_length_le : ∀ k n : Nat, n < 10 ^ k → 0 < k →
    (decBytes n).length ≤ k := by
  intro k
  induction k with
  | zero => intro n _ hk; omega
  | succ k ih =>
    intro n hn _
    by_cases h : n < 10
    · rw [decBytes_lt10 h]; simp
    · have hk0 : 0 < k := by
        by_contra hk
        have : k = 0 := by omega
        subst this
        simp [pow_succ, pow_zero] at hn
        omega
      rw [decBytes_ge10 (by omega)]
      have hdiv : n / 10 < 10 ^ k := by
        rw [Nat.div_lt_iff_lt_mul (by omega)]
        calc n < 10 ^ (k + 1) := hn
          _ = 10 ^ k * 10 := by ring
      have := ih (n / 10) hdiv hk0
      simp only [List.length_append, List.length_cons, List.length_nil]
      omega

theorem decBytes_headD_digit (n : Nat) :
    48 ≤ (decBytes n).headD 0 ∧ (decBytes n).headD 0 ≤ 57 := by
  cases h : decBytes n with
  | nil => exact absurd h (decBytes_ne_nil n)
  | cons a t =>
    have : a ∈ decBytes n := by rw [h]; exact List.mem_cons_self a t
    simpa using decBytes_digits n a this

theorem decBytes_not_nl (n : Nat) : ∀ b ∈ decBytes n, notNl b = true := by
  intro b hb
  have := decBytes_digits n b hb
  simp only [notNl, decide_eq_true_eq]
  omega

/-! ### scanf %u -/

theorem scanU_ws_skip (pre s : List Nat)
    (h : ∀ b ∈ pre, isWs b = true) : scanU (pre ++ s) = scanU s := by
  unfold scanU
  rw [dropWhile_append_all s h]

theorem scanU_dec (n : Nat) (rest : List Nat) (hn : n < U32)
    (hrest : isDigit (rest.headD 0) = false) :
    scanU (decBytes n ++ rest) = some (n, rest) := by
  obtain ⟨d, ds, hd⟩ : ∃ d ds, decBytes n = d :: ds := by
    cases h : decBytes n with
    | nil => exact absurd h (decBytes_ne_nil n)
    | cons a t => exact ⟨a, t, rfl⟩
  have hdig : 48 ≤ d ∧ d ≤ 57 := by
    have : d ∈ decBytes n := by rw [hd]; exact List.mem_cons_self d ds
    exact decBytes_digits n d this
  have hdrop : (decBytes n ++ rest).dropWhile isWs = decBytes n ++ rest := by
    rw [hd, List.cons_append]
    exact dropWhile_cons_false _ (isWs_digit_false hdig.1 hdig.2)
  have hhead : (decBytes n ++ rest).headD 0 = d := by
    rw [hd, List.cons_append, List.headD_cons]
  have htake : (decBytes n ++ rest).takeWhile isDigit = decBytes n := by
    rw [takeWhile_append_all rest (fun b hb => by
      have := decBytes_digits n b hb
      simp only [isDigit, decide_eq_true_eq]
      omega)]
    have : rest.takeWhile isDigit = [] := by
      cases rest with
      | nil => rfl
      | cons a t => exact takeWhile_cons_false t (by simpa using hrest)
    rw [this, List.append_nil]
  have hval : min (digitsVal (decBytes n)) (U64 - 1) = n := by
    rw [digitsVal_decBytes]
    have h1 : n < U64 - 1 := lt_of_lt_of_le hn (by norm_num [U32, U64])
    exact min_eq_left (le_of_lt h1)
  simp only [scanU]
  rw [hdrop, hhead]
  rw [if_neg (show ¬ (d = 43 ∨ d = 45) by omega)]
  rw [htake]
  rw [if_neg (show ¬ ((decBytes n).isEmpty = true) by rw [hd]; simp)]
  rw [if_neg (show ¬ d = 45 by omega)]
  rw [hval, Nat.mod_eq_of_lt hn, List.drop_left]

/-! ### readline -/

theorem takeWhile_length_le {α : Type} (p : α → Bool) (l : List α) :
    (l.takeWhile p).length ≤ l.length := by
  induction l with
  | nil => simp
  | cons a t ih =>
    rw [List.takeWhile_cons]
    by_cases h : p a = true
    · simp only [h, if_true, List.length_cons]
      omega
    · simp [h]

theorem dropWhile_length_le {α : Type} (p : α → Bool) (l : List α) :
    (l.dropWhile p).length ≤ l.length := by
  induction l with
  | nil => simp
  | cons a t ih =>
    rw [List.dropWhile_cons]
    by_cases h : p a = true
    · simp only [h, if_true, List.length_cons]
      omega
    · simp [h]

theorem takeLine_length_le (s : List Nat) : (takeLine s).length ≤ s.length := by
  unfold takeLine
  calc ((s.takeWhile notNl).take 1024).length ≤ (s.takeWhile notNl).length := by
        rw [List.length_take]; omega
    _ ≤ s.length := takeWhile_length_le notNl s

theorem takeLine_cons_nl (t : List Nat) : takeLine (10 :: t) = [] := by
  unfold takeLine
  rw [takeWhile_cons_false t (show notNl 10 = false by decide)]
  rfl

theorem takeLine_cons_pos {a : Nat} (t : List Nat) (h : notNl a = true) :
    takeLine (a :: t) = a :: (t.takeWhile notNl).take 1023 := by
  unfold takeLine
  rw [List.takeWhile_cons, if_pos h, show (1024 : Nat) = 1023 + 1 from rfl,
    List.take_succ_cons]

theorem lineRest_length_lt (s : List Nat) (h : s ≠ []) :
    (lineRest s).length < s.length := by
  obtain ⟨a, t, rfl⟩ : ∃ a t, s = a :: t := by
    cases s with
    | nil => exact absurd rfl h
    | cons a t => exact ⟨a, t, rfl⟩
  by_cases ha : notNl a = true
  · unfold lineRest
    rw [takeLine_cons_pos t ha]
    have h2 : ((a :: t).drop (a :: (t.takeWhile notNl).take 1023).length).length
        = (a :: t).length - (a :: (t.takeWhile notNl).take 1023).length :=
      List.length_drop _ _
    have h3 := dropWhile_length_le isWs ((a :: t).drop
      (a :: (t.takeWhile notNl).take 1023).length)
    simp only [List.length_cons] at h2 h3 ⊢
    omega
  · have ha10 : a = 10 := by
      simp only [notNl, decide_eq_true_eq, Decidable.not_not] at ha
      exact ha
    subst ha10
    unfold lineRest
    rw [takeLine_cons_nl]
    simp only [List.length_nil, List.drop_zero]
    rw [List.dropWhile_cons, if_pos (show isWs 10 = true by decide)]
    have := dropWhile_length_le isWs t
    simp only [List.length_cons]
    omega

theorem readlineF_congr : ∀ (f g : Nat) (s buf : List Nat), s.length < f →
    s.length < g → readlineF f s buf = readlineF g s buf := by
  intro f
  induction f with
  | zero => intro g s buf hf _; exact absurd hf (Nat.not_lt_zero _)
  | succ f ih =>
    intro g s buf hf hg
    cases g with
    | zero => exact absurd hg (Nat.not_lt_zero _)
    | succ g =>
      simp only [readlineF]
      by_cases h35 : (lineBuf s buf).headD 0 = 35
      · rw [if_pos h35, if_pos h35]
        by_cases hs : s.isEmpty = true
        · rw [if_pos hs, if_pos hs]
        · rw [if_neg hs, if_neg hs]
          have hne : s ≠ [] := by
            intro e; rw [e] at hs; exact hs rfl
          have hlt := lineRest_length_lt s hne
          exact ih g (lineRest s) (lineBuf s buf) (by omega) (by omega)
      · rw [if_neg h35, if_neg h35]

theorem readline_step (s buf : List Nat) :
    readline s buf =
      if (lineBuf s buf).headD 0 = 35 then
        if s.isEmpty then none else readline (lineRest s) (lineBuf s buf)
      else some (lineBuf s buf, lineRest s) := by
  have h1 : readline s buf =
      if (lineBuf s buf).headD 0 = 35 then
        (if s.isEmpty then none
         else readlineF s.length (lineRest s) (lineBuf s buf))
      else some (lineBuf s buf, lineRest s) := rfl
  rw [h1]
  by_cases h35 : (lineBuf s buf).headD 0 = 35
  · rw [if_pos h35, if_pos h35]
    by_cases hs : s.isEmpty = true
    · rw [if_pos hs, if_pos hs]
    · rw [if_neg hs, if_neg hs]
      have hne : s ≠ [] := by
        intro e; rw [e] at hs; exact hs rfl
      have hlt := lineRest_length_lt s hne
      exact readlineF_congr s.length ((lineRest s).length + 1) (lineRest s)
        (lineBuf s buf) (by omega) (by omega)
  · rw [if_neg h35, if_neg h35]

theorem isEmpty_false_of_ne_nil {α : Type} {l : List α} (h : l ≠ []) :
    l.isEmpty = false := by
  cases l with
  | nil => exact absurd rfl h
  | cons a t => rfl

theorem readline_line {l : List Nat} (s buf : List Nat) (hne : l ≠ [])
    (hnl : ∀ b ∈ l, notNl b = true) (hlen : l.length ≤ 1024)
    (h35 : l.headD 0 ≠ 35) :
    readline (l ++ 10 :: s) buf = some (l, s.dropWhile isWs) := by
  have htl : takeLine (l ++ 10 :: s) = l := by
    unfold takeLine
    rw [takeWhile_append_all (10 :: s) hnl,
      takeWhile_cons_false s (show notNl 10 = false by decide),
      List.append_nil, List.take_of_length_le hlen]
  have hbuf : lineBuf (l ++ 10 :: s) buf = l := by
    unfold lineBuf
    rw [htl, isEmpty_false_of_ne_nil hne]
    simp
  have hrest : lineRest (l ++ 10 :: s) = s.dropWhile isWs := by
    unfold lineRest
    rw [htl, List.drop_left, List.dropWhile_cons,
      if_pos (show isWs 10 = true by decide)]
  rw [readline_step, hbuf, hrest, if_neg h35]

theorem readline_comment {c : List Nat} (s buf : List Nat) (h35 : c.headD 0 = 35)
    (hnl : ∀ b ∈ c, notNl b = true) (hlen : c.length ≤ 1024) :
    readline (c ++ 10 :: s) buf = readline (s.dropWhile isWs) c := by
  have hne : c ≠ [] := by
    intro e; rw [e] at h35; exact absurd h35 (by decide)
  have htl : takeLine (c ++ 10 :: s) = c := by
    unfold takeLine
    rw [takeWhile_append_all (10 :: s) hnl,
      takeWhile_cons_false s (show notNl 10 = false by decide),
      List.append_nil, List.take_of_length_le hlen]
  have hbuf : lineBuf (c ++ 10 :: s) buf = c := by
    unfold lineBuf
    rw [htl, isEmpty_false_of_ne_nil hne]
    simp
  have hrest : lineRest (c ++ 10 :: s) = s.dropWhile isWs := by
    unfold lineRest
    rw [htl, List.drop_left, List.dropWhile_cons,
      if_pos (show isWs 10 = true by decide)]
  have hemp : (c ++ 10 :: s).isEmpty = false := by
    cases c with
    | nil => exact absurd rfl hne
    | cons a t => rfl
  rw [readline_step, hbuf, hrest, if_pos h35, hemp]
  simp

/-! ### Comment lines interleaved with header lines -/

/-- Splice a list of comment lines, each newline-terminated, in front of
the remaining source s. -/
def joinC (cs : List (List Nat)) (s : List Nat) : List Nat :=
  cs.foldr (fun c acc => c ++ 10 :: acc) s

/-- A comment line as load_header skips it: starts with byte 35, contains
no newline, and fits the 1024-byte working buffer of the C code. -/
@[reducible]
def ValidComment (c : List Nat) : Prop :=
  c.headD 0 = 35 ∧ (∀ b ∈ c, notNl b = true) ∧ c.length ≤ 1024

/-- A header line in the plain form load_header reads it: nonempty, free
of newlines, within the 1024-byte working buffer, not a comment line, and
not beginning with whitespace. -/
@[reducible]
def LineOk (l : List Nat) : Prop :=
  l ≠ [] ∧ (∀ b ∈ l, notNl b = true) ∧ l.length ≤ 1024 ∧
    l.headD 0 ≠ 35 ∧ isWs (l.headD 0) = false

theorem headD_append_left {l : List Nat} (r : List Nat) (h : l ≠ []) :
    (l ++ r).headD 0 = l.headD 0 := by
  cases l with
  | nil => exact absurd rfl h
  | cons a t => rfl

theorem joinC_headD_not_ws {cs : List (List Nat)} {s : List Nat}
    (hcs : ∀ c ∈ cs, ValidComment c) (hs : isWs (s.headD 0) = false) :
    isWs ((joinC cs s).headD 0) = false := by
  cases cs with
  | nil => exact hs
  | cons c cs =>
    have hc := hcs c (List.mem_cons_self c cs)
    have hne : c ≠ [] := by
      intro e; rw [e] at hc; exact absurd hc.1 (by decide)
    have : joinC (c :: cs) s = c ++ 10 :: joinC cs s := rfl
    rw [this, headD_append_left _ hne, hc.1]
    decide

theorem readline_joinC : ∀ (cs : List (List Nat)) (s b : List Nat),
    (∀ c ∈ cs, ValidComment c) → isWs (s.headD 0) = false →
    readline (joinC cs s) b = readline s (cs.getLastD b) := by
  intro cs
  induction cs with
  | nil => intro s b _ _; rfl
  | cons c cs ih =>
    intro s b hcs hs
    have hc := hcs c (List.mem_cons_self c cs)
    have hrec : joinC (c :: cs) s = c ++ 10 :: joinC cs s := rfl
    rw [hrec, readline_comment (joinC cs s) b hc.1 hc.2.1 hc.2.2,
      dropWhile_isWs_nop
        (joinC_headD_not_ws (fun x hx => hcs x (List.mem_cons_of_mem c hx)) hs),
      ih s c (fun x hx => hcs x (List.mem_cons_of_mem c hx)) hs,
      List.getLastD_cons]

/-- The header parse determined by the three header lines and the input
suffix recorded as the data offset: the match tree of load_header once the
three readline calls are resolved.  Used only to state that parses of
sources differing in inserted comment lines coincide. -/
def headerOf (l1 l2 l3 rest : List Nat) : Option (Except PPMErr ppm_header) :=
  let cont := fun (ty : PPM_TYPE) =>
    match scan2u l2 with
    | none => some (.error .malformedHeader)
    | some (w, h) =>
      match scan1u l3 with
      | none => some (.error .malformedHeader)
      | some mv =>
        if 255 < mv then some (.error .unsupportedRange)
        else some (.ok ⟨ty, w, h, mv, rest⟩)
  if l1 = tagP3 then cont .ascii
  else if l1 = tagP6 then cont .raw
  else some (.error .unsupportedFormat)

theorem load_header_lines (cs0 cs1 cs2 : List (List Nat))
    (l1 l2 l3 data buf0 : List Nat)
    (h1 : LineOk l1) (h2 : LineOk l2) (h3 : LineOk l3)
    (hc0 : ∀ c ∈ cs0, ValidComment c) (hc1 : ∀ c ∈ cs1, ValidComment c)
    (hc2 : ∀ c ∈ cs2, ValidComment c) :
    load_header
        (joinC cs0 (l1 ++ 10 :: joinC cs1 (l2 ++ 10 :: joinC cs2 (l3 ++ 10 :: data))))
        buf0
      = headerOf l1 l2 l3 (data.dropWhile isWs) := by
  have hS3ws : isWs ((joinC cs2 (l3 ++ 10 :: data)).headD 0) = false :=
    joinC_headD_not_ws hc2 (by rw [headD_append_left _ h3.1]; exact h3.2.2.2.2)
  have hS2ws : isWs ((joinC cs1
      (l2 ++ 10 :: joinC cs2 (l3 ++ 10 :: data))).headD 0) = false :=
    joinC_headD_not_ws hc1 (by rw [headD_append_left _ h2.1]; exact h2.2.2.2.2)
  have hstep1 : readline
      (joinC cs0 (l1 ++ 10 :: joinC cs1 (l2 ++ 10 :: joinC cs2 (l3 ++ 10 :: data))))
      buf0 = some (l1, joinC cs1 (l2 ++ 10 :: joinC cs2 (l3 ++ 10 :: data))) := by
    rw [readline_joinC cs0 _ buf0 hc0
        (by rw [headD_append_left _ h1.1]; exact h1.2.2.2.2),
      readline_line _ _ h1.1 h1.2.1 h1.2.2.1 h1.2.2.2.1,
      dropWhile_isWs_nop hS2ws]
  have hstep2 : readline
      (joinC cs1 (l2 ++ 10 :: joinC cs2 (l3 ++ 10 :: data))) l1
      = some (l2, joinC cs2 (l3 ++ 10 :: data)) := by
    rw [readline_joinC cs1 _ l1 hc1
        (by rw [headD_append_left _ h2.1]; exact h2.2.2.2.2),
      readline_line _ _ h2.1 h2.2.1 h2.2.2.1 h2.2.2.2.1,
      dropWhile_isWs_nop hS3ws]
  have hstep3 : readline (joinC cs2 (l3 ++ 10 :: data)) l2
      = some (l3, data.dropWhile isWs) := by
    rw [readline_joinC cs2 _ l2 hc2
        (by rw [headD_append_left _ h3.1]; exact h3.2.2.2.2),
      readline_line _ _ h3.1 h3.2.1 h3.2.2.1 h3.2.2.2.1]
  simp only [load_header, hstep1, hstep2, hstep3, headerOf]

/-! ### Decoding what write_ppm produced -/

theorem decodeBin_write : ∀ ps : List pixel_t,
    decodeBin ps.length (writeBinPixels ps) = ps := by
  intro ps
  induction ps with
  | nil => rfl
  | cons p ps ih =>
    show pixel_t.mk p.r p.g p.b :: decodeBin ps.length (writeBinPixels ps) = p :: ps
    rw [ih]

theorem scanU3_ws_skip {pre : List Nat} (s : List Nat)
    (h : ∀ b ∈ pre, isWs b = true) : scanU3 (pre ++ s) = scanU3 s := by
  simp only [scanU3]
  rw [scanU_ws_skip pre s h]

theorem scanU3_pixDec (p : pixel_t) (rest : List Nat)
    (hr : p.r < U32) (hg : p.g < U32) (hb : p.b < U32)
    : scanU3 (pixDec p ++ rest) = some (p.r, p.g, p.b, 32 :: rest) := by
  have hshape : pixDec p ++ rest =
      decBytes p.r ++ 32 :: (decBytes p.g ++ 32 :: (decBytes p.b ++ 32 :: rest)) := by
    simp [pixDec, List.append_assoc]
  have h32 : ∀ x : List Nat, isDigit ((32 :: x).headD 0) = false := by
    intro x; rw [List.headD_cons]; decide
  have e1 : scanU (decBytes p.r ++ 32 :: (decBytes p.g ++ 32 ::
      (decBytes p.b ++ 32 :: rest))) = some (p.r, 32 :: (decBytes p.g ++ 32 ::
      (decBytes p.b ++ 32 :: rest))) := scanU_dec p.r _ hr (h32 _)
  have w2 : scanU (32 :: (decBytes p.g ++ 32 :: (decBytes p.b ++ 32 :: rest)))
      = scanU (decBytes p.g ++ 32 :: (decBytes p.b ++ 32 :: rest)) :=
    scanU_ws_skip [32] _ (by decide)
  have e2 := w2.trans (scanU_dec p.g _ hg (h32 _))
  have w3 : scanU (32 :: (decBytes p.b ++ 32 :: rest))
      = scanU (decBytes p.b ++ 32 :: rest) :=
    scanU_ws_skip [32] _ (by decide)
  have e3 := w3.trans (scanU_dec p.b _ hb (h32 _))
  rw [hshape]
  simp only [scanU3, e1, e2, e3]

theorem writeAsciiPixels_cons (count : Nat) (p : pixel_t) (ps : List pixel_t) :
    writeAsciiPixels count (p :: ps) =
      pixDec p ++ ((if (count + 1) % 5 = 0 then [10] else []) ++
        writeAsciiPixels (count + 1) ps) := by
  simp only [writeAsciiPixels, List.append_assoc]

theorem decodeAscii_write : ∀ (ps : List pixel_t) (count : Nat) (pre : List Nat),
    (∀ p ∈ ps, p.r ≤ 255 ∧ p.g ≤ 255 ∧ p.b ≤ 255) →
    (∀ b ∈ pre, isWs b = true) →
    decodeAscii 255 ps.length (pre ++ writeAsciiPixels count ps) = .ok ps := by
  intro ps
  induction ps with
  | nil => intro count pre _ _; rfl
  | cons p ps ih =>
    intro count pre hps hpre
    have hp := hps p (List.mem_cons_self p ps)
    have hscan : scanU3 (pre ++ writeAsciiPixels count (p :: ps)) =
        some (p.r, p.g, p.b,
          32 :: ((if (count + 1) % 5 = 0 then [10] else []) ++
            writeAsciiPixels (count + 1) ps)) := by
      rw [scanU3_ws_skip _ hpre, writeAsciiPixels_cons]
      exact scanU3_pixDec p _ (by have := hp.1; simp only [U32]; omega)
        (by have := hp.2.1; simp only [U32]; omega)
        (by have := hp.2.2; simp only [U32]; omega)
    have hpre2 : ∀ b ∈ 32 :: (if (count + 1) % 5 = 0 then [10] else ([] : List Nat)),
        isWs b = true := by
      intro b hb
      by_cases h5 : (count + 1) % 5 = 0
      · rw [if_pos h5] at hb
        simp only [List.mem_cons, List.not_mem_nil, or_false] at hb
        rcases hb with rfl | rfl <;> decide
      · rw [if_neg h5] at hb
        simp only [List.mem_cons, List.not_mem_nil, or_false] at hb
        subst hb
        decide
    have hcons : 32 :: ((if (count + 1) % 5 = 0 then [10] else []) ++
        writeAsciiPixels (count + 1) ps) =
        (32 :: (if (count + 1) % 5 = 0 then [10] else [])) ++
          writeAsciiPixels (count + 1) ps := rfl
    have hih := ih (count + 1) (32 :: (if (count + 1) % 5 = 0 then [10] else []))
      (fun q hq => hps q (List.mem_cons_of_mem p hq)) hpre2
    show decodeAscii 255 (ps.length + 1) (pre ++ writeAsciiPixels count (p :: ps))
      = .ok (p :: ps)
    simp only [decodeAscii, hscan]
    rw [if_neg (by omega), hcons, hih]

/-! ### Parsing a header write_ppm produced -/

theorem append_ne_nil_left {α : Type} {l : List α} (r : List α) (h : l ≠ []) :
    l ++ r ≠ [] := by
  cases l with
  | nil => exact absurd rfl h
  | cons a t => simp

theorem decBytes_headD_not_ws (n : Nat) : isWs ((decBytes n).headD 0) = false :=
  isWs_digit_false (decBytes_headD_digit n).1 (decBytes_headD_digit n).2

theorem pixDec_headD (p : pixel_t) : (pixDec p).headD 0 = (decBytes p.r).headD 0 := by
  unfold pixDec
  rw [headD_append_left _ (append_ne_nil_left _
      (append_ne_nil_left _ (decBytes_ne_nil p.r))),
    headD_append_left _ (append_ne_nil_left _ (decBytes_ne_nil p.r)),
    headD_append_left _ (decBytes_ne_nil p.r)]

theorem scan2u_dims (w h : Nat) (hw : w < U32) (hh : h < U32) :
    scan2u (decBytes w ++ 32 :: decBytes h) = some (w, h) := by
  have e1 : scanU (decBytes w ++ 32 :: decBytes h) = some (w, 32 :: decBytes h) :=
    scanU_dec w _ hw (by rw [List.headD_cons]; decide)
  have e2 : scanU (32 :: decBytes h) = some (h, []) := by
    have base := scanU_dec h [] hh (by decide)
    rw [List.append_nil] at base
    exact (scanU_ws_skip [32] (decBytes h) (by decide)).trans base
  simp only [scan2u, e1, e2]

theorem dims_line_ok {w h : Nat} (hw : w < U32) (hh : h < U32) :
    LineOk (decBytes w ++ 32 :: decBytes h) := by
  have hU : U32 < 10 ^ 10 := by norm_num [U32]
  have hd := decBytes_headD_digit w
  refine ⟨append_ne_nil_left _ (decBytes_ne_nil w), ?_, ?_, ?_, ?_⟩
  · intro b hb
    rcases List.mem_append.mp hb with h1 | h2
    · exact decBytes_not_nl w b h1
    · rcases List.mem_cons.mp h2 with rfl | h2
      · decide
      · exact decBytes_not_nl h b h2
  · have l1 := decBytes_length_le 10 w (by omega) (by omega)
    have l2 := decBytes_length_le 10 h (by omega) (by omega)
    simp only [List.length_append, List.length_cons]
    omega
  · rw [headD_append_left _ (decBytes_ne_nil w)]
    omega
  · rw [headD_append_left _ (decBytes_ne_nil w)]
    exact decBytes_headD_not_ws w

theorem load_header_write (tag : List Nat) (ty : PPM_TYPE) (w h : Nat)
    (data buf0 : List Nat)
    (htag : (tag = tagP3 ∧ ty = .ascii) ∨ (tag = tagP6 ∧ ty = .raw))
    (hw : w < U32) (hh : h < U32) (hdata : isWs (data.headD 0) = false) :
    load_header (headerBytes tag w h ++ data) buf0
      = some (.ok ⟨ty, w, h, 255, data⟩) := by
  have hLtag : LineOk tag := by
    rcases htag with ⟨rfl, _⟩ | ⟨rfl, _⟩ <;> exact ⟨by decide, by decide, by decide,
      by decide, by decide⟩
  have hLdims : LineOk (decBytes w ++ 32 :: decBytes h) := dims_line_ok hw hh
  have hL3 : LineOk [50, 53, 53] := ⟨by decide, by decide, by decide, by decide,
    by decide⟩
  have hnil : ∀ c ∈ ([] : List (List Nat)), ValidComment c := by
    intro c hc; exact absurd hc (List.not_mem_nil c)
  have hshape : headerBytes tag w h ++ data
      = tag ++ 10 :: ((decBytes w ++ 32 :: decBytes h) ++
          10 :: ([50, 53, 53] ++ 10 :: data)) := by
    simp [headerBytes, List.append_assoc]
  have hl : load_header (tag ++ 10 :: ((decBytes w ++ 32 :: decBytes h) ++
        10 :: ([50, 53, 53] ++ 10 :: data))) buf0
      = headerOf tag (decBytes w ++ 32 :: decBytes h) [50, 53, 53]
          (data.dropWhile isWs) :=
    load_header_lines [] [] [] tag (decBytes w ++ 32 :: decBytes h) [50, 53, 53]
      data buf0 hLtag hLdims hL3 hnil hnil hnil
  rw [hshape, hl, dropWhile_isWs_nop hdata]
  have e2 := scan2u_dims w h hw hh
  have e3 : scan1u [50, 53, 53] = some 255 := by decide
  rcases htag with ⟨rfl, rfl⟩ | ⟨rfl, rfl⟩
  · simp only [headerOf, e2, e3]
    simp
  · simp only [headerOf, e2, e3]
    simp [tagP3, tagP6]

/-! ### Claim C2 -/

/-- Claim C2, amended.  Storing an image with positive dimensions, a pixel
store of matching size, a pixel count below the int range, and components
in [0,255] in the Text variant, then loading the written bytes, yields the
identical image.  For the Binary variant the same holds provided
additionally that the red component of the first pixel is not an ASCII
whitespace value (9 to 13 or 32): the newline directive that ends header
reading consumes a maximal whitespace run, so leading whitespace bytes of
binary pixel data are lost to the header (see the counterexample). -/
theorem c2_round_trip (img : img_t)
    (hlen : img.pix1d.length = img.width * img.height)
    (hw : 0 < img.width) (hh : 0 < img.height)
    (hsize : img.width * img.height < 2 ^ 31)
    (hcomp : ∀ p ∈ img.pix1d, p.r ≤ 255 ∧ p.g ≤ 255 ∧ p.b ≤ 255) :
    load_ppm (write_ppm img .ascii) [] = some (.ok img) ∧
      (∀ p0 : pixel_t, img.pix1d.head? = some p0 → isWs p0.r = false →
        load_ppm (write_ppm img .raw) [] = some (.ok img)) := by
  have hwU : img.width < U32 := by
    have h1 : img.width ≤ img.width * img.height :=
      Nat.le_mul_of_pos_right _ hh
    simp only [U32]
    omega
  have hhU : img.height < U32 := by
    have h1 : img.height ≤ img.width * img.height :=
      Nat.le_mul_of_pos_left _ hw
    simp only [U32]
    omega
  have hmod : img.width * img.height % U32 = img.width * img.height :=
    Nat.mod_eq_of_lt (by simp only [U32]; omega)
  obtain ⟨p0, tl, hps⟩ : ∃ p0 tl, img.pix1d = p0 :: tl := by
    cases h : img.pix1d with
    | nil =>
      rw [h] at hlen
      have := Nat.mul_pos hw hh
      simp at hlen
      omega
    | cons a t => exact ⟨a, t, rfl⟩
  constructor
  · have hpd : pixDec p0 ≠ [] := by
      unfold pixDec
      exact append_ne_nil_left _ (append_ne_nil_left _
        (append_ne_nil_left _ (decBytes_ne_nil p0.r)))
    have hdata : isWs ((writeAsciiPixels 0 img.pix1d).headD 0) = false := by
      rw [hps, writeAsciiPixels_cons, headD_append_left _ hpd, pixDec_headD]
      exact decBytes_headD_not_ws p0.r
    have hdr := load_header_write tagP3 .ascii img.width img.height
      (writeAsciiPixels 0 img.pix1d) [] (Or.inl ⟨rfl, rfl⟩) hwU hhU hdata
    have hdec : decodeAscii 255 (img.width * img.height)
        (writeAsciiPixels 0 img.pix1d) = .ok img.pix1d := by
      have h0 := decodeAscii_write img.pix1d 0 [] hcomp
        (fun b hb => absurd hb (List.not_mem_nil b))
      rw [List.nil_append] at h0
      rw [← hlen]
      exact h0
    show load_ppm (headerBytes tagP3 img.width img.height ++
      writeAsciiPixels 0 img.pix1d) [] = some (.ok img)
    simp only [load_ppm, hdr, hmod, hdec]
  · intro q0 hq hws
    have hq0 : p0 = q0 := by
      rw [hps] at hq
      simpa using hq
    subst hq0
    have hbin : writeBinPixels img.pix1d =
        p0.r :: (p0.g :: (p0.b :: writeBinPixels tl)) := by
      rw [hps]
      simp only [writeBinPixels]
    have hdata : isWs ((writeBinPixels img.pix1d).headD 0) = false := by
      rw [hbin, List.headD_cons]
      exact hws
    have hdr := load_header_write tagP6 .raw img.width img.height
      (writeBinPixels img.pix1d) [] (Or.inr ⟨rfl, rfl⟩) hwU hhU hdata
    have hdec : decodeBin (img.width * img.height) (writeBinPixels img.pix1d)
        = img.pix1d := by
      rw [← hlen]
      exact decodeBin_write img.pix1d
    show load_ppm (headerBytes tagP6 img.width img.height ++
      writeBinPixels img.pix1d) [] = some (.ok img)
    simp only [load_ppm, hdr, hmod, hdec]

/-- Claim C2, counterexample to the Binary half as stated: the 1 by 1
image whose single pixel is (32, 1, 1) does not survive a Binary round
trip.  The byte 32 (space) at the start of the pixel data is consumed by
the whitespace run after the header maxval line, so the loaded image is
(1, 1, 0): the data is shifted by one byte and the last fread finds no
byte (the C code leaves that component indeterminate; the model writes 0). -/
theorem c2_counterexample :
    load_ppm (write_ppm ⟨1, 1, [⟨32, 1, 1⟩]⟩ .raw) []
        = some (.ok ⟨1, 1, [⟨1, 1, 0⟩]⟩) ∧
      load_ppm (write_ppm ⟨1, 1, [⟨32, 1, 1⟩]⟩ .raw) []
        ≠ some (.ok ⟨1, 1, [⟨32, 1, 1⟩]⟩) := by
  constructor
  · decide
  · decide

/-- Witness for c2_round_trip at a concrete 2 by 1 image. -/
theorem c2_round_trip_witness :
    load_ppm (write_ppm ⟨2, 1, [⟨255, 0, 128⟩, ⟨7, 8, 9⟩]⟩ .ascii) []
        = some (.ok ⟨2, 1, [⟨255, 0, 128⟩, ⟨7, 8, 9⟩]⟩) ∧
      load_ppm (write_ppm ⟨2, 1, [⟨255, 0, 128⟩, ⟨7, 8, 9⟩]⟩ .raw) []
        = some (.ok ⟨2, 1, [⟨255, 0, 128⟩, ⟨7, 8, 9⟩]⟩) := by
  have h := c2_round_trip ⟨2, 1, [⟨255, 0, 128⟩, ⟨7, 8, 9⟩]⟩ (by decide) (by decide)
    (by decide) (by decide) (by decide)
  exact ⟨h.1, h.2 ⟨255, 0, 128⟩ rfl (by decide)⟩

/-! ### Claim C1 -/

/-- Claim C1 (evaluation at the failing input): a Binary source consisting
of a valid 1 by 1 header and no pixel data at all, three bytes short of
width times height times 3, is loaded successfully.  The C code never
checks the fread return values, so end of file goes undetected, no failure
is reported, and the caller receives a buffer whose pixel bytes keep their
indeterminate allocation-time values instead of the TruncatedData failure
the specification requires. -/
theorem c1_truncated_binary_loads :
    (load_ppm_ret (headerBytes tagP6 1 1) []).isSome = true ∧
      ∃ img, load_ppm (headerBytes tagP6 1 1) [] = some (.ok img) :=
  ⟨by decide, ⟨⟨1, 1, [⟨0, 0, 0⟩]⟩, by decide⟩⟩

/-! ### Claim C3 -/

/-- Claim C3, counterexample: two loads failing for different reasons of
the taxonomy (an unsupported tag line, and an out-of-range maxval) return
the same caller-visible value, a bare absent img_t pointer; the returned
outcome identifies neither which error occurred nor anything beyond the
failure itself. -/
theorem c3_counterexample :
    load_ppm [80, 55, 10] [] = some (.error .unsupportedFormat) ∧
      load_ppm [80, 51, 10, 49, 32, 49, 10, 50, 53, 54, 10] []
        = some (.error .unsupportedRange) ∧
      load_ppm_ret [80, 55, 10] [] = none ∧
      load_ppm_ret [80, 51, 10, 49, 32, 49, 10, 50, 53, 54, 10] [] = none :=
  ⟨by decide, by decide, by decide, by decide⟩

/-- Claim C3, amended: every load failure reaches the caller as the same
bare absent value (NULL); the taxonomy causes exist as distinct exits in
the control flow, two of them also as distinct stderr diagnostics, but the
returned outcome collapses them all. -/
theorem c3_failures_collapse (s1 s2 b1 b2 : List Nat) (e1 e2 : PPMErr)
    (h1 : load_ppm s1 b1 = some (.error e1))
    (h2 : load_ppm s2 b2 = some (.error e2)) :
    load_ppm_ret s1 b1 = none ∧ load_ppm_ret s1 b1 = load_ppm_ret s2 b2 := by
  simp only [load_ppm_ret, h1, h2]
  exact ⟨trivial, trivial⟩

/-- Witness for c3_failures_collapse at two concrete failing sources. -/
theorem c3_failures_collapse_witness :
    load_ppm_ret [80, 55, 10] [] = none ∧
      load_ppm_ret [80, 55, 10] [] =
        load_ppm_ret [80, 51, 10, 49, 32, 49, 10, 50, 53, 54, 10] [] :=
  c3_failures_collapse _ _ _ _ .unsupportedFormat .unsupportedRange
    (by decide) (by decide)

/-! ### Claim C4 -/

/-- Claim C4, counterexample: the source with tag line P3, dimensions line
1 2 3 (three integer tokens) and maxval line 255 is accepted by header
parsing, with width 1 and height 2; the third token is ignored, not
rejected with MalformedHeader. -/
theorem c4_counterexample :
    load_header [80, 51, 10, 49, 32, 50, 32, 51, 10, 50, 53, 53, 10] []
      = some (.ok ⟨.ascii, 1, 2, 255, []⟩) := by decide

/-- Claim C4, amended: a dimensions line on which the two %u conversions
do not both succeed (fewer tokens, or a non-integer token in an integer
position) fails with MalformedHeader; content on the dimensions line after
the two converted integers is ignored rather than rejected. -/
theorem c4_dims_parse :
    (∀ s buf0 l1 s1 l2 s2 : List Nat, readline s buf0 = some (l1, s1) →
        (l1 = tagP3 ∨ l1 = tagP6) → readline s1 l1 = some (l2, s2) →
        scan2u l2 = none →
        load_header s buf0 = some (.error .malformedHeader)) ∧
      (∀ (w h : Nat) (junk : List Nat), w < U32 → h < U32 →
        scan2u (decBytes w ++ 32 :: (decBytes h ++ 32 :: junk)) = some (w, h)) := by
  constructor
  · intro s buf0 l1 s1 l2 s2 hr1 htag hr2 hscan
    rcases htag with rfl | rfl <;>
      · simp only [load_header, hr1, hr2, hscan]
        simp [tagP3, tagP6]
  · intro w h junk hw hh
    have e1 : scanU (decBytes w ++ 32 :: (decBytes h ++ 32 :: junk))
        = some (w, 32 :: (decBytes h ++ 32 :: junk)) :=
      scanU_dec w _ hw (by rw [List.headD_cons]; decide)
    have e2 : scanU (32 :: (decBytes h ++ 32 :: junk)) = some (h, 32 :: junk) :=
      (scanU_ws_skip [32] _ (by decide)).trans
        (scanU_dec h _ hh (by rw [List.headD_cons]; decide))
    simp only [scan2u, e1, e2]

/-- Witness for c4_dims_parse: a non-integer dimensions line is rejected;
a dimensions line with a third token is read as its first two integers. -/
theorem c4_dims_parse_witness :
    load_header [80, 51, 10, 120, 10, 50, 53, 53, 10] []
        = some (.error .malformedHeader) ∧
      scan2u (decBytes 1 ++ 32 :: (decBytes 2 ++ 32 :: [51])) = some (1, 2) :=
  ⟨c4_dims_parse.1 [80, 51, 10, 120, 10, 50, 53, 53, 10] [] [80, 51]
      [120, 10, 50, 53, 53, 10] [120] [50, 53, 53, 10] (by decide) (Or.inl rfl)
      (by decide) (by decide),
    c4_dims_parse.2 1 2 [51] (by decide) (by decide)⟩

/-! ### Claim C5 -/

/-- Claim C5, counterexample: the Binary encoding of the 1 by 1 image with
pixel (255, 0, 128) is 14 bytes, not 15: the literal header text is 11
bytes and the pixel adds 3. -/
theorem c5_counterexample :
    (write_ppm ⟨1, 1, [⟨255, 0, 128⟩]⟩ .raw).length ≠ 15 := by decide

/-- Claim C5, amended: the encoding is exactly these 14 bytes: the literal
header text P6, newline, 1, space, 1, newline, 2, 5, 5, newline, followed
by the bytes 0xFF, 0x00, 0x80, and nothing else. -/
theorem c5_exact_bytes :
    write_ppm ⟨1, 1, [⟨255, 0, 128⟩]⟩ .raw
      = [80, 54, 10, 49, 32, 49, 10, 50, 53, 53, 10, 255, 0, 128] := by decide

/-! ### Claim C8 -/

/-- Whitespace-trimmed content of a line. -/
def trimWs (l : List Nat) : List Nat :=
  ((l.dropWhile isWs).reverse.dropWhile isWs).reverse

/-- Claim C8: whenever the first readline of the source returns a line (the
first non-comment line, after comment skipping) whose trimmed content is
neither the Text tag P3 nor the Binary tag P6, load_header fails at the
UnsupportedFormat exit. -/
theorem c8_unsupported_tag (s buf0 l r : List Nat)
    (hread : readline s buf0 = some (l, r))
    (h3 : trimWs l ≠ tagP3) (h6 : trimWs l ≠ tagP6) :
    load_ppm s buf0 = some (.error .unsupportedFormat) := by
  have e3 : l ≠ tagP3 := by
    intro e; subst e; exact h3 (by decide)
  have e6 : l ≠ tagP6 := by
    intro e; subst e; exact h6 (by decide)
  have hh : load_header s buf0 = some (.error .unsupportedFormat) := by
    simp only [load_header, hread]
    rw [if_neg e3, if_neg e6]
  simp only [load_ppm, hh]

/-- Witness for c8_unsupported_tag at the concrete source with tag P7. -/
theorem c8_unsupported_tag_witness :
    load_ppm [80, 55, 10, 49, 32, 49, 10, 50, 53, 53, 10] []
      = some (.error .unsupportedFormat) :=
  c8_unsupported_tag _ [] [80, 55] [49, 32, 49, 10, 50, 53, 53, 10] (by decide)
    (by decide) (by decide)

/-! ### Claim C6 -/

theorem decodeAscii_ok_bounds : ∀ (mv n : Nat) (s : List Nat)
    (ps : List pixel_t), decodeAscii mv n s = .ok ps →
    ∀ p ∈ ps, p.r ≤ mv ∧ p.g ≤ mv ∧ p.b ≤ mv := by
  intro mv n
  induction n with
  | zero =>
    intro s ps h p hp
    simp only [decodeAscii, Except.ok.injEq] at h
    subst h
    exact absurd hp (List.not_mem_nil p)
  | succ n ih =>
    intro s ps h p hp
    simp only [decodeAscii] at h
    cases hscan : scanU3 s with
    | none =>
      simp only [hscan] at h
      exact absurd h (by simp)
    | some v =>
      obtain ⟨r, g, b, s1⟩ := v
      simp only [hscan] at h
      by_cases hover : mv < r ∨ mv < g ∨ mv < b
      · rw [if_pos hover] at h
        exact absurd h (by simp)
      · rw [if_neg hover] at h
        cases hrec : decodeAscii mv n s1 with
        | error e =>
          simp only [hrec] at h
          exact absurd h (by simp)
        | ok tl =>
          simp only [hrec, Except.ok.injEq] at h
          subst h
          rcases List.mem_cons.mp hp with rfl | hp2
          · show r ≤ mv ∧ g ≤ mv ∧ b ≤ mv
            omega
          · exact ih s1 tl hrec p hp2

/-- Claim C6: during Text decoding every triple of components is checked
against the maxval the header declared, a component above it failing at
the ComponentOutOfRange exit, so every successfully Text-loaded pixel is
bounded by that maxval; during Binary decoding no such check exists: once
the header is accepted, a Binary load always returns an image, whatever
byte values the data holds. -/
theorem c6_range_check_asymmetry :
    (∀ (mv n : Nat) (s : List Nat) (r g b : Nat) (s1 : List Nat),
        scanU3 s = some (r, g, b, s1) → mv < r ∨ mv < g ∨ mv < b →
        decodeAscii mv (n + 1) s = .error .componentOutOfRange) ∧
      (∀ (mv n : Nat) (s : List Nat) (ps : List pixel_t),
        decodeAscii mv n s = .ok ps →
        ∀ p ∈ ps, p.r ≤ mv ∧ p.g ≤ mv ∧ p.b ≤ mv) ∧
      (∀ (s buf0 : List Nat) (hd : ppm_header),
        load_header s buf0 = some (.ok hd) → hd.type = .raw →
        ∃ img, load_ppm s buf0 = some (.ok img)) := by
  refine ⟨?_, decodeAscii_ok_bounds, ?_⟩
  · intro mv n s r g b s1 hscan hover
    simp only [decodeAscii, hscan]
    rw [if_pos hover]
  · intro s buf0 hd hload htype
    refine ⟨⟨hd.width, hd.height, decodeBin (hd.width * hd.height % U32) hd.rest⟩, ?_⟩
    simp only [load_ppm, hload, htype]

/-- Witness for c6_range_check_asymmetry: a Text triple 255 255 255 under
maxval 0 is rejected as ComponentOutOfRange, a Text load under maxval 255
yields only bounded components, and a Binary source with declared maxval 0
and data bytes 255 loads successfully. -/
theorem c6_range_check_asymmetry_witness :
    decodeAscii 0 1 [50, 53, 53, 32, 50, 53, 53, 32, 50, 53, 53, 32]
        = .error .componentOutOfRange ∧
      ((pixel_t.mk 1 2 3).r ≤ 255 ∧ (pixel_t.mk 1 2 3).g ≤ 255 ∧
        (pixel_t.mk 1 2 3).b ≤ 255) ∧
      (∃ img, load_ppm [80, 54, 10, 49, 32, 49, 10, 48, 10, 255, 255, 255] []
        = some (.ok img)) :=
  ⟨c6_range_check_asymmetry.1 0 0 _ 255 255 255 [32] (by decide) (by omega),
    c6_range_check_asymmetry.2.1 255 1 [49, 32, 50, 32, 51, 32] [⟨1, 2, 3⟩]
      (by decide) ⟨1, 2, 3⟩ (by decide),
    c6_range_check_asymmetry.2.2 [80, 54, 10, 49, 32, 49, 10, 48, 10, 255, 255, 255]
      [] ⟨.raw, 1, 1, 0, [255, 255, 255]⟩ (by decide) rfl⟩

/-! ### Claim C7 -/

theorem count_nl_decBytes (n : Nat) : (decBytes n).count 10 = 0 := by
  rw [List.count_eq_zero]
  intro hmem
  have := decBytes_digits n 10 hmem
  omega

theorem count_nl_pixDec (p : pixel_t) : (pixDec p).count 10 = 0 := by
  unfold pixDec
  simp [List.count_append, List.count_cons, count_nl_decBytes]

theorem count_nl_writeAscii : ∀ (ps : List pixel_t) (c : Nat),
    (writeAsciiPixels c ps).count 10 = (c + ps.length) / 5 - c / 5 := by
  intro ps
  induction ps with
  | nil => intro c; simp [writeAsciiPixels]
  | cons p ps ih =>
    intro c
    rw [writeAsciiPixels_cons, List.count_append, List.count_append,
      count_nl_pixDec, ih (c + 1)]
    have hite : (if (c + 1) % 5 = 0 then ([10] : List Nat) else []).count 10
        = if (c + 1) % 5 = 0 then 1 else 0 := by
      by_cases h5 : (c + 1) % 5 = 0
      · rw [if_pos h5, if_pos h5]
        rfl
      · rw [if_neg h5, if_neg h5]
        rfl
    rw [hite]
    simp only [List.length_cons]
    by_cases h5 : (c + 1) % 5 = 0 <;> simp only [h5, if_true, if_false] <;> omega

theorem pixDec_ne_nil (p : pixel_t) : pixDec p ≠ [] := by
  unfold pixDec
  exact append_ne_nil_left _ (append_ne_nil_left _
    (append_ne_nil_left _ (decBytes_ne_nil p.r)))

theorem pixDec_concat (p : pixel_t) :
    pixDec p = (decBytes p.r ++ 32 :: decBytes p.g ++ 32 :: decBytes p.b) ++ [32] :=
  rfl

theorem getLast_writeAscii : ∀ (ps : List pixel_t) (c : Nat), ps ≠ [] →
    (c + ps.length) % 5 ≠ 0 → (writeAsciiPixels c ps).getLast? = some 32 := by
  intro ps
  induction ps with
  | nil => intro c h _; exact absurd rfl h
  | cons p ps ih =>
    intro c _ hmod
    rw [writeAsciiPixels_cons]
    cases hps : ps with
    | nil =>
      subst hps
      have h1 : (c + 1) % 5 ≠ 0 := by
        simpa using hmod
      rw [if_neg h1]
      simp only [writeAsciiPixels, List.append_nil, List.nil_append]
      rw [pixDec_concat]
      exact List.getLast?_concat _
    | cons q qs =>
      subst hps
      have hne : writeAsciiPixels (c + 1) (q :: qs) ≠ [] := by
        rw [writeAsciiPixels_cons]
        exact append_ne_nil_left _ (pixDec_ne_nil q)
      have hBC : (if (c + 1) % 5 = 0 then ([10] : List Nat) else []) ++
          writeAsciiPixels (c + 1) (q :: qs) ≠ [] := by
        intro e
        exact hne (List.append_eq_nil.mp e).2
      rw [List.getLast?_append_of_ne_nil _ hBC,
        List.getLast?_append_of_ne_nil _ hne]
      refine ih (c + 1) (by simp) ?_
      simp only [List.length_cons] at hmod ⊢
      omega

/-- Claim C7: in the Text pixel block the number of newline bytes emitted
over pixels written at running count c is the number of multiples of 5 the
counter passes, a single running count over the flattened pixel sequence
(the decimal components and separators contribute no newline byte); in
particular the block of any 12-pixel image contains exactly 2 newlines and
ends with a space, not a newline, so no newline follows pixel 12. -/
theorem c7_newline_cadence :
    (∀ (ps : List pixel_t) (c : Nat),
        (writeAsciiPixels c ps).count 10 = (c + ps.length) / 5 - c / 5) ∧
      (∀ img : img_t, img.pix1d.length = 12 →
        write_ppm img .ascii = headerBytes tagP3 img.width img.height ++
            writeAsciiPixels 0 img.pix1d ∧
          (writeAsciiPixels 0 img.pix1d).count 10 = 2 ∧
          (writeAsciiPixels 0 img.pix1d).getLast? = some 32) := by
  refine ⟨count_nl_writeAscii, ?_⟩
  intro img h12
  refine ⟨rfl, ?_, ?_⟩
  · rw [count_nl_writeAscii img.pix1d 0, h12]
  · refine getLast_writeAscii img.pix1d 0 ?_ ?_
    · intro e
      rw [e] at h12
      simp at h12
    · rw [h12]
      decide

/-- Witness for c7_newline_cadence at a concrete 4 by 3 image. -/
theorem c7_newline_cadence_witness :
    (writeAsciiPixels 0 (List.replicate 12 ⟨1, 2, 3⟩)).count 10 = 2 ∧
      (writeAsciiPixels 0 (List.replicate 12 ⟨1, 2, 3⟩)).getLast? = some 32 := by
  have h := c7_newline_cadence.2 ⟨4, 3, List.replicate 12 ⟨1, 2, 3⟩⟩ (by decide)
  exact ⟨h.2.1, h.2.2⟩

/-! ### Claim C9 -/

/-- Claim C9: a successful header parse never carries a maxval above 255,
and whenever the parse reaches the maxval line and its %u conversion
yields a value above 255 (256 for example), load_header fails at the
UnsupportedRange exit. -/
theorem c9_range_rejection :
    (∀ (s buf0 : List Nat) (hd : ppm_header),
        load_header s buf0 = some (.ok hd) → hd.maxval ≤ 255) ∧
      (∀ (s buf0 l1 s1 l2 s2 l3 s3 : List Nat) (w h mv : Nat),
        readline s buf0 = some (l1, s1) → (l1 = tagP3 ∨ l1 = tagP6) →
        readline s1 l1 = some (l2, s2) → scan2u l2 = some (w, h) →
        readline s2 l2 = some (l3, s3) → scan1u l3 = some mv → 255 < mv →
        load_ppm s buf0 = some (.error .unsupportedRange)) := by
  constructor
  · intro s buf0 hd hload
    simp only [load_header] at hload
    repeat' split at hload
    all_goals try exact Option.noConfusion hload
    all_goals try exact Option.noConfusion hload fun h12 => Except.noConfusion h12
    all_goals
      injection hload with ha
      injection ha with hb
      subst hb
      simp
      omega
  · intro s buf0 l1 s1 l2 s2 l3 s3 w h mv hr1 htag hr2 hs2 hr3 hs1 hmv
    have hh : load_header s buf0 = some (.error .unsupportedRange) := by
      rcases htag with rfl | rfl <;>
        · simp only [load_header, hr1, hr2, hs2, hr3, hs1]
          simp [tagP3, tagP6, hmv]
    simp only [load_ppm, hh]

/-- Witness for c9_range_rejection: the parsed header of a maxval-255
source is bounded, and the source P3, 1 1, 256 is rejected. -/
theorem c9_range_rejection_witness :
    (⟨PPM_TYPE.ascii, 1, 1, 255, []⟩ : ppm_header).maxval ≤ 255 ∧
      load_ppm [80, 51, 10, 49, 32, 49, 10, 50, 53, 54, 10] []
        = some (.error .unsupportedRange) :=
  ⟨c9_range_rejection.1 [80, 51, 10, 49, 32, 49, 10, 50, 53, 53, 10] [] _
      (by decide),
    c9_range_rejection.2 [80, 51, 10, 49, 32, 49, 10, 50, 53, 54, 10] []
      [80, 51] [49, 32, 49, 10, 50, 53, 54, 10] [49, 32, 49] [50, 53, 54, 10]
      [50, 53, 54] [] 1 1 256 (by decide) (Or.inl rfl) (by decide) (by decide)
      (by decide) (by decide) (by omega)⟩

/-! ### Claim C10 -/

/-- Claim C10: for every source in the three-header-line form that header
parsing accepts, splicing comment lines (first byte 35, no newline, within
the 1024-byte working buffer the specification documents) at any of the
three header-line positions, including several consecutive ones and at
several positions at once, yields the same parsed header: same variant,
width, height and maximum component value (and even the same data rest). -/
theorem c10_comment_insertion (cs0 cs1 cs2 : List (List Nat))
    (l1 l2 l3 data buf0 : List Nat) (q : ppm_header)
    (h1 : LineOk l1) (h2 : LineOk l2) (h3 : LineOk l3)
    (hc0 : ∀ c ∈ cs0, ValidComment c) (hc1 : ∀ c ∈ cs1, ValidComment c)
    (hc2 : ∀ c ∈ cs2, ValidComment c)
    (hacc : load_header (l1 ++ 10 :: (l2 ++ 10 :: (l3 ++ 10 :: data))) buf0
      = some (.ok q)) :
    load_header
        (joinC cs0 (l1 ++ 10 :: joinC cs1 (l2 ++ 10 :: joinC cs2 (l3 ++ 10 :: data))))
        buf0 = some (.ok q) := by
  have hnil : ∀ c ∈ ([] : List (List Nat)), ValidComment c := by
    intro c hc
    exact absurd hc (List.not_mem_nil c)
  have hplain : load_header (l1 ++ 10 :: (l2 ++ 10 :: (l3 ++ 10 :: data))) buf0
      = headerOf l1 l2 l3 (data.dropWhile isWs) :=
    load_header_lines [] [] [] l1 l2 l3 data buf0 h1 h2 h3 hnil hnil hnil
  rw [load_header_lines cs0 cs1 cs2 l1 l2 l3 data buf0 h1 h2 h3 hc0 hc1 hc2,
    ← hplain, hacc]

/-- Witness for c10_comment_insertion: comments spliced at all three
positions of the source P3, 2 3, 200 leave the parse unchanged. -/
theorem c10_comment_insertion_witness :
    load_header (joinC [[35, 97]] ([80, 51] ++ 10 :: joinC [[35, 98], [35, 99]]
        ([50, 32, 51] ++ 10 :: joinC [[35, 100]] ([50, 48, 48] ++ 10 :: [88])))) []
      = some (.ok ⟨.ascii, 2, 3, 200, [88]⟩) :=
  c10_comment_insertion [[35, 97]] [[35, 98], [35, 99]] [[35, 100]]
    [80, 51] [50, 32, 51] [50, 48, 48] [88] [] ⟨.ascii, 2, 3, 200, [88]⟩
    (by decide) (by decide) (by decide) (by decide) (by decide) (by decide)
    (by decide)

end Ppm
